import Mathlib

/-!
Verification of the itmo_ledger bonus-point ledger.

The data layer lives in `src/internal/data/transactions.go` (two revisions of
the file are present in the repository; where they differ in behaviour both are
embedded and the difference is proved).  The HTTP validation layer lives in
`src/cmd/api/transactions.go`.  Persistent rows of the `transactions` table are
embedded as the `Transaction` structure; SQL queries over the table become pure
functions over a `List Transaction`; the `ORDER BY ... FOR UPDATE` selection is
embedded both executably (a sort) and relationally (any permutation of the
eligible rows that is sorted by the query's ORDER BY key), since SQL leaves the
relative order of rows with equal keys unspecified.

Instants are modelled as seconds (`Nat`); `DATE(expires_at)` becomes division
by the number of seconds in a day.  Go `int` values are modelled as `Int`.
-/

namespace Ledger

/-- Seconds in one day; `INTERVAL '1 day'` in the SQL. -/
def day : Nat := 86400

/-- `DATE(t)`: the calendar date of an instant, as a day number. -/
def dateOf (t : Nat) : Nat := t / day

/-- One row of the `transactions` table
(`id, user_id, amount, created_at, expires_at, remaining_amount`). -/
structure Transaction where
  id : Nat
  userId : Nat
  amount : Int
  createdAt : Nat
  expiresAt : Nat
  remainingAmount : Int
deriving DecidableEq, Repr

/-- Error kinds returned by the data layer (`ErrInsufficientFunds`, and a
storage failure bubbling up from `database/sql`). -/
inductive LedgerError where
  | insufficientFunds
  | storage
deriving DecidableEq, Repr

/-- The WHERE clause shared by the balance query and the withdrawal lock query:
`user_id = $1 AND expires_at > NOW() AND remaining_amount > 0`. -/
def eligible (uid now : Nat) (l : Transaction) : Bool :=
  l.userId == uid && decide (now < l.expiresAt) && decide (0 < l.remainingAmount)

/-- The ORDER BY key of the second revision's lock query:
`ORDER BY expires_at ASC, created_at ASC`. -/
def keyLe (a b : Transaction) : Prop :=
  a.expiresAt < b.expiresAt ∨ (a.expiresAt = b.expiresAt ∧ a.createdAt ≤ b.createdAt)

/-- The ORDER BY key of the first revision's lock query:
`ORDER BY expires_at ASC` (no tie-break). -/
def expLe (a b : Transaction) : Prop := a.expiresAt ≤ b.expiresAt

instance : DecidableRel keyLe := fun a b => by unfold keyLe; infer_instance

instance : DecidableRel expLe := fun a b => by unfold expLe; infer_instance

instance : IsTotal Transaction keyLe where
  total a b := by
    unfold keyLe
    rcases Nat.lt_trichotomy a.expiresAt b.expiresAt with h | h | h
    · exact Or.inl (Or.inl h)
    · rcases Nat.le_total a.createdAt b.createdAt with h' | h'
      · exact Or.inl (Or.inr ⟨h, h'⟩)
      · exact Or.inr (Or.inr ⟨h.symm, h'⟩)
    · exact Or.inr (Or.inl h)

instance : IsTrans Transaction keyLe where
  trans a b c hab hbc := by
    unfold keyLe at *
    rcases hab with h1 | ⟨he1, hc1⟩
    · rcases hbc with h2 | ⟨he2, _⟩
      · exact Or.inl (h1.trans h2)
      · exact Or.inl (he2 ▸ h1)
    · rcases hbc with h2 | ⟨he2, hc2⟩
      · exact Or.inl (he1 ▸ h2)
      · exact Or.inr ⟨he1.trans he2, hc1.trans hc2⟩

instance : IsTotal Transaction expLe where
  total a b := Nat.le_total a.expiresAt b.expiresAt

instance : IsTrans Transaction expLe where
  trans _ _ _ hab hbc := Nat.le_trans hab hbc

/-- Executable model of the second revision's lock query: the eligible rows of
the owner, sorted by `(expires_at, created_at)` ascending. -/
def lockEligible (lots : List Transaction) (uid now : Nat) : List Transaction :=
  (lots.filter (eligible uid now)).insertionSort keyLe

/-- Relational model of the second revision's lock query: any row order the SQL
`ORDER BY expires_at ASC, created_at ASC` permits (a permutation of the
eligible rows sorted by the key; rows with fully equal keys may come back in
any relative order). -/
def SelSpec2 (lots : List Transaction) (uid now : Nat)
    (records : List Transaction) : Prop :=
  records.Perm (lots.filter (eligible uid now)) ∧ records.Pairwise keyLe

/-- Relational model of the first revision's lock query, whose SQL orders by
`expires_at ASC` only: rows sharing an `expires_at` may come back in any
relative order. -/
def SelSpec1 (lots : List Transaction) (uid now : Nat)
    (records : List Transaction) : Prop :=
  records.Perm (lots.filter (eligible uid now)) ∧ records.Pairwise expLe

/-- `totalAvailable`: the sum of `remaining_amount` over a list of rows. -/
def sumRemain (rs : List Transaction) : Int :=
  (rs.map Transaction.remainingAmount).sum

/-- The deduction loop of the second revision of `WithdrawBonusPoints`
(lines 445-462): walk the locked rows, skip out once nothing remains to
deduct, otherwise deduct `min(remainingToDeduct, remaining_amount)` and record
the UPDATE `(id, newRemaining)`. -/
def deductPlan : List Transaction → Int → List (Nat × Int)
  | [], _ => []
  | r :: rs, remainingToDeduct =>
    if remainingToDeduct ≤ 0 then []
    else
      let deductFromThis :=
        if remainingToDeduct > r.remainingAmount then r.remainingAmount
        else remainingToDeduct
      (r.id, r.remainingAmount - deductFromThis)
        :: deductPlan rs (remainingToDeduct - deductFromThis)

/-- The deduction loop of the first revision of `WithdrawBonusPoints`
(lines 220-242): if the row covers what is still needed, set its remainder to
the difference and stop; otherwise zero the row and continue. -/
def deductPlanFirst : List Transaction → Int → List (Nat × Int)
  | [], _ => []
  | r :: rs, remaining =>
    if remaining ≤ 0 then []
    else if r.remainingAmount ≥ remaining then [(r.id, r.remainingAmount - remaining)]
    else (r.id, (0 : Int)) :: deductPlanFirst rs (remaining - r.remainingAmount)

/-- `UPDATE transactions SET remaining_amount = $1 WHERE id = $2`. -/
def setRemaining (lots : List Transaction) (lotId : Nat) (newRemaining : Int) :
    List Transaction :=
  lots.map fun l =>
    if l.id = lotId then { l with remainingAmount := newRemaining } else l

/-- Execute a list of UPDATEs in order. -/
def applyUpdates (lots : List Transaction) (plan : List (Nat × Int)) :
    List Transaction :=
  plan.foldl (fun acc p => setRemaining acc p.1 p.2) lots

/-- `WithdrawBonusPoints` given the rows the lock query returned: abort with
`ErrInsufficientFunds` when `totalAvailable < amount`, otherwise run the
deduction loop and commit. -/
def withdrawGiven (lots records : List Transaction) (amount : Int) :
    Except LedgerError (List Transaction) :=
  if sumRemain records < amount then .error .insufficientFunds
  else .ok (applyUpdates lots (deductPlan records amount))

/-- `WithdrawBonusPoints` with the executable row order. -/
def withdrawBonusPoints (lots : List Transaction) (uid : Nat) (amount : Int)
    (now : Nat) : Except LedgerError (List Transaction) :=
  withdrawGiven lots (lockEligible lots uid now) amount

/-- The balance query of `GetBalanceWithExpiration`:
`SELECT COALESCE(SUM(remaining_amount), 0) ... WHERE user_id = $1 AND
expires_at > NOW() AND remaining_amount > 0`. -/
def sumBalance (lots : List Transaction) (uid now : Nat) : Int :=
  sumRemain (lots.filter (eligible uid now))

/-- The WHERE clause of the expiration query: eligible and
`expires_at <= NOW() + INTERVAL '30 days'`. -/
def inWindow (uid now : Nat) (l : Transaction) : Bool :=
  l.userId == uid && decide (now < l.expiresAt) &&
    decide (l.expiresAt ≤ now + 30 * day) && decide (0 < l.remainingAmount)

/-- `SUM(remaining_amount) ... GROUP BY DATE(expires_at)`: the group sum for
one date. -/
def dateSum (ls : List Transaction) (d : Nat) : Int :=
  sumRemain (ls.filter fun l => dateOf l.expiresAt == d)

/-- The expiration query: group the in-window rows by `DATE(expires_at)`,
ordered by date ascending, each date paired with its group sum. -/
def expirationBreakdown (lots : List Transaction) (uid now : Nat) :
    List (Nat × Int) :=
  let win := lots.filter (inWindow uid now)
  (((win.map fun l => dateOf l.expiresAt).dedup).insertionSort (· ≤ ·)).map
    fun d => (d, dateSum win d)

/-- `GetBalanceWithExpiration` on the success path (both revisions agree
there): the balance and the 30-day breakdown. -/
def getBalanceWithExpiration (lots : List Transaction) (uid now : Nat) :
    Int × List (Nat × Int) :=
  (sumBalance lots uid now, expirationBreakdown lots uid now)

/-- Error handling of the first revision of `GetBalanceWithExpiration`
(lines 119-164): a failure of either query is returned to the caller.  The two
booleans inject a storage failure into the balance query and the expiration
query respectively. -/
def getBalanceFirstRev (lots : List Transaction) (uid now : Nat)
    (balanceQueryFails expirationQueryFails : Bool) :
    Except LedgerError (Int × List (Nat × Int)) :=
  if balanceQueryFails then .error .storage
  else if expirationQueryFails then .error .storage
  else .ok (sumBalance lots uid now, expirationBreakdown lots uid now)

/-- Error handling of the second revision of `GetBalanceWithExpiration`
(lines 314-358): a failure of the balance query is returned, but on a failure
of the expiration query the function returns
`totalBalance, expirations, nil` — the balance with the (empty) expirations
map and no error. -/
def getBalanceSecondRev (lots : List Transaction) (uid now : Nat)
    (balanceQueryFails expirationQueryFails : Bool) :
    Except LedgerError (Int × List (Nat × Int)) :=
  if balanceQueryFails then .error .storage
  else if expirationQueryFails then .ok (sumBalance lots uid now, [])
  else .ok (sumBalance lots uid now, expirationBreakdown lots uid now)

/-! ### Operation traces

`AddBonusPoints` inserts a fresh row; sequences of grants and withdrawals are
run over a store state.  The `FOR UPDATE` lock serialises all writes for one
owner, so committed histories are exactly the serial traces modelled here. -/

/-- The store: the `transactions` table plus the next value of the
`gen_random_uuid()` id generator (modelled as a counter, which keeps generated
ids unique exactly as the DB does). -/
structure St where
  lots : List Transaction
  nextId : Nat
deriving Repr

/-- The empty store. -/
def st0 : St := ⟨[], 0⟩

/-- `AddBonusPoints(userID, amount, lifetimeDays)`:
`INSERT INTO transactions (user_id, amount, expires_at, remaining_amount)
VALUES ($1, $2, NOW() + $3 * INTERVAL '1 day', $2)` — a fresh row with
`created_at = NOW()`, `expires_at = NOW() + lifetimeDays days` and
`remaining_amount = amount`, returned to the caller. -/
def addBonusPoints (st : St) (uid : Nat) (amount : Int) (lifetimeDays : Nat)
    (now : Nat) : St × Transaction :=
  let trx : Transaction :=
    { id := st.nextId, userId := uid, amount := amount, createdAt := now,
      expiresAt := now + lifetimeDays * day, remainingAmount := amount }
  ({ lots := st.lots ++ [trx], nextId := st.nextId + 1 }, trx)

/-- One ledger operation of a trace. -/
inductive Op where
  | grant (uid : Nat) (amount : Int) (lifetimeDays : Nat)
  | withdraw (uid : Nat) (amount : Int)
deriving DecidableEq, Repr

/-- The amount an operation carries. -/
def opAmount : Op → Int
  | .grant _ a _ => a
  | .withdraw _ a => a

/-- Run one timed operation; a withdrawal that fails rolls its transaction
back, leaving the store unchanged. -/
def runOp (st : St) (p : Nat × Op) : St :=
  match p.2 with
  | .grant uid a ld => (addBonusPoints st uid a ld p.1).1
  | .withdraw uid a =>
    match withdrawBonusPoints st.lots uid a p.1 with
    | .error _ => st
    | .ok lots' => { st with lots := lots' }

/-- Run a list of timed operations in order. -/
def runOps : St → List (Nat × Op) → St
  | st, [] => st
  | st, p :: rest => runOps (runOp st p) rest

/-- Sum of the amounts of the grants for one owner in a trace. -/
def grantedTotal (uid : Nat) : List (Nat × Op) → Int
  | [] => 0
  | (_, .grant u a _) :: rest =>
    (if u = uid then a else 0) + grantedTotal uid rest
  | _ :: rest => grantedTotal uid rest

/-- Sum of the amounts of the successful withdrawals for one owner along a
trace started in `st`. -/
def withdrawnTotal (uid : Nat) : St → List (Nat × Op) → Int
  | _, [] => 0
  | st, (now, op) :: rest =>
    (match op with
     | .withdraw u a =>
       if u = uid ∧ (withdrawBonusPoints st.lots u a now).isOk then a else 0
     | _ => 0) + withdrawnTotal uid (runOp st (now, op)) rest

/-- Sum of `remaining_amount` over all of an owner's rows, expired or not. -/
def sumOwnerAll (uid : Nat) (lots : List Transaction) : Int :=
  ((lots.filter fun l => l.userId == uid).map Transaction.remainingAmount).sum

/-- Sum of the granted `amount` over all of an owner's rows. -/
def sumOwnerAmount (uid : Nat) (lots : List Transaction) : Int :=
  ((lots.filter fun l => l.userId == uid).map Transaction.amount).sum

/-- The claim's `sum(a_i over lots that have not yet expired)`: granted
amounts of the owner's unexpired rows. -/
def nonExpiredGrantSum (lots : List Transaction) (uid now : Nat) : Int :=
  ((lots.filter fun l => l.userId == uid && decide (now < l.expiresAt)).map
    Transaction.amount).sum

/-! ### The HTTP validation layer (`src/cmd/api/transactions.go`) -/

/-- The validation phase of `createTransactionHandler` (lines 26-41): collect
the failed checks of `v.Check(err == nil, "user_id")`,
`v.Check(amount > 0, "amount")`, `v.Check(IsPermitted(type), "type")`; for a
deposit, a zero `lifetime_days` is first defaulted to 365 and
`v.Check(lifetimeDays > 0, "lifetime_days")` runs on the result.  Returns the
failed field names and the effective lifetime. -/
def validateTransaction (uidOk : Bool) (amount : Int) (ty : String)
    (lifetimeDays : Int) : List String × Int :=
  let ld := if ty = "deposit" ∧ lifetimeDays = 0 then 365 else lifetimeDays
  ((if uidOk then [] else ["user_id"]) ++
     (if amount > 0 then [] else ["amount"]) ++
     (if ty = "deposit" ∨ ty = "withdrawal" then [] else ["type"]) ++
     (if ty = "deposit" ∧ ¬ld > 0 then ["lifetime_days"] else []),
   ld)

/-- What `createTransactionHandler` writes back. -/
inductive HandlerOutcome where
  | failedValidation (fields : List String)
  | created (trx : Transaction)
  | okBalance (balance : Int) (expirations : List (Nat × Int))
  | badRequest
deriving DecidableEq, Repr

/-- `createTransactionHandler`: validate; on failure answer 422 without
touching the store; a deposit calls `AddBonusPoints` with the effective
lifetime and answers 201 with the new row; a withdrawal calls
`WithdrawBonusPoints` (400 on insufficient funds) and answers 200 with the new
balance and breakdown. -/
def createTransactionHandler (st : St) (now : Nat) (uidOk : Bool) (uid : Nat)
    (amount : Int) (ty : String) (lifetimeDays : Int) : HandlerOutcome × St :=
  let v := validateTransaction uidOk amount ty lifetimeDays
  if v.1 ≠ [] then (.failedValidation v.1, st)
  else if ty = "deposit" then
    let r := addBonusPoints st uid amount v.2.toNat now
    (.created r.2, r.1)
  else
    match withdrawBonusPoints st.lots uid amount now with
    | .error _ => (.badRequest, st)
    | .ok lots' =>
      (.okBalance (sumBalance lots' uid now) (expirationBreakdown lots' uid now),
       { st with lots := lots' })

/-! ### Definitions taken from the spec's words (for refinement comparison) -/

/-- Modelled from the spec: `expiringBreakdown` groups `remainingAmount` by
the calendar date of `expiresAt` over exactly the lots with
`now < expiresAt <= now + horizon` (30 days) — note: no `remainingAmount > 0`
condition appears in the spec's wording.  This is the per-date sum that
wording prescribes. -/
def specWindowSum (lots : List Transaction) (uid now d : Nat) : Int :=
  ((lots.filter fun l =>
      l.userId == uid && decide (now < l.expiresAt) &&
        decide (l.expiresAt ≤ now + 30 * day) &&
        (dateOf l.expiresAt == d)).map Transaction.remainingAmount).sum

/-! ### Small helpers used by statements -/

/-- Find the value an UPDATE plan writes for a given row id. -/
def lookupPlan : List (Nat × Int) → Nat → Option Int
  | [], _ => none
  | p :: ps, i => if p.1 = i then some p.2 else lookupPlan ps i

/-- Find a row by id. -/
def findById (lots : List Transaction) (i : Nat) : Option Transaction :=
  lots.find? fun l => l.id == i

/-- Look a date up in a breakdown, defaulting to 0 points expiring. -/
def lookupAmount (bd : List (Nat × Int)) (d : Nat) : Int :=
  match bd.find? fun p => p.1 == d with
  | some p => p.2
  | none => 0

/-! ### Concrete data used in the examples and counterexamples -/

/-- The spec's FIFO example: lots of 100, 150 and 200 points expiring in 5,
10 and 25 days. -/
def fifoLots : List Transaction :=
  [{ id := 1, userId := 1, amount := 100, createdAt := 0,
     expiresAt := 5 * day, remainingAmount := 100 },
   { id := 2, userId := 1, amount := 150, createdAt := 0,
     expiresAt := 10 * day, remainingAmount := 150 },
   { id := 3, userId := 1, amount := 200, createdAt := 0,
     expiresAt := 25 * day, remainingAmount := 200 }]

/-- The spec's horizon example: 80 points expiring in 10 days and 120 points
expiring in 90 days. -/
def horizonLots : List Transaction :=
  [{ id := 1, userId := 1, amount := 80, createdAt := 0,
     expiresAt := 10 * day, remainingAmount := 80 },
   { id := 2, userId := 1, amount := 120, createdAt := 0,
     expiresAt := 90 * day, remainingAmount := 120 }]

/-- A lot created at instant 1. -/
def tieLotA : Transaction :=
  { id := 1, userId := 7, amount := 10, createdAt := 1, expiresAt := 100,
    remainingAmount := 10 }

/-- A lot created at instant 2 with the same expiry as `tieLotA`. -/
def tieLotB : Transaction :=
  { id := 2, userId := 7, amount := 10, createdAt := 2, expiresAt := 100,
    remainingAmount := 10 }

/-- Two lots of one owner sharing an expiry instant. -/
def tieLots : List Transaction := [tieLotA, tieLotB]

/-- Grant 100 points living one day, withdraw 60 of them. -/
def expiryTraceOps : List (Nat × Op) :=
  [(0, .grant 1 100 1), (0, .withdraw 1 60)]

/-- Grant 100 points living five days, withdraw 60 of them. -/
def liveTraceOps : List (Nat × Op) :=
  [(0, .grant 1 100 5), (0, .withdraw 1 60)]

/-- What a plan writes into one row. -/
def updRow (plan : List (Nat × Int)) (l : Transaction) : Transaction :=
  match lookupPlan plan l.id with
  | some v => { l with remainingAmount := v }
  | none => l

/-- The store invariant: every row's remainder lies in `[0, amount]` (the
schema CHECK constraints), ids are below the generator counter, and ids are
unique. -/
def StInv (st : St) : Prop :=
  (∀ l ∈ st.lots,
    0 ≤ l.remainingAmount ∧ l.remainingAmount ≤ l.amount ∧ l.id < st.nextId) ∧
  (st.lots.map Transaction.id).Nodup

/-! ## Helper lemmas -/

theorem Transaction.setSame (l : Transaction) :
    { l with remainingAmount := l.remainingAmount } = l := rfl

theorem eligible_iff {uid now : Nat} {l : Transaction} :
    eligible uid now l = true ↔
      l.userId = uid ∧ now < l.expiresAt ∧ 0 < l.remainingAmount := by
  simp [eligible, Bool.and_eq_true, decide_eq_true_iff, and_assoc]

theorem sumRemain_nil : sumRemain [] = 0 := rfl

theorem sumRemain_cons (r : Transaction) (rs : List Transaction) :
    sumRemain (r :: rs) = r.remainingAmount + sumRemain rs := by
  simp [sumRemain]

theorem sumRemain_nonneg {rs : List Transaction}
    (h : ∀ r ∈ rs, 0 ≤ r.remainingAmount) : 0 ≤ sumRemain rs := by
  induction rs with
  | nil => simp [sumRemain]
  | cons r rs ih =>
    rw [sumRemain_cons]
    have := h r (by simp)
    have := ih fun x hx => h x (by simp [hx])
    omega

theorem sumRemain_perm {rs₁ rs₂ : List Transaction} (h : rs₁.Perm rs₂) :
    sumRemain rs₁ = sumRemain rs₂ :=
  (h.map Transaction.remainingAmount).sum_eq

/-- Rows with the same id in a duplicate-free table are the same row. -/
theorem eq_of_mem_of_id_eq {lots : List Transaction}
    (hnd : (lots.map Transaction.id).Nodup) {a b : Transaction}
    (ha : a ∈ lots) (hb : b ∈ lots) (h : a.id = b.id) : a = b :=
  List.inj_on_of_nodup_map hnd ha hb h

theorem setRemaining_map_id (lots : List Transaction) (i : Nat) (v : Int) :
    (setRemaining lots i v).map Transaction.id = lots.map Transaction.id := by
  simp only [setRemaining, List.map_map]
  refine List.map_congr_left fun l _ => ?_
  by_cases h : l.id = i <;> simp [h]

theorem applyUpdates_nil (lots : List Transaction) :
    applyUpdates lots [] = lots := rfl

theorem applyUpdates_cons (lots : List Transaction) (p : Nat × Int)
    (ps : List (Nat × Int)) :
    applyUpdates lots (p :: ps) = applyUpdates (setRemaining lots p.1 p.2) ps :=
  rfl

theorem applyUpdates_map_id (plan : List (Nat × Int)) :
    ∀ lots : List Transaction,
      (applyUpdates lots plan).map Transaction.id = lots.map Transaction.id := by
  induction plan with
  | nil => intro lots; rfl
  | cons p ps ih =>
    intro lots
    rw [applyUpdates_cons, ih, setRemaining_map_id]

theorem lookupPlan_eq_none {ps : List (Nat × Int)} {i : Nat}
    (h : i ∉ ps.map Prod.fst) : lookupPlan ps i = none := by
  induction ps with
  | nil => rfl
  | cons p ps ih =>
    simp only [List.map_cons, List.mem_cons] at h
    push_neg at h
    simp only [lookupPlan, if_neg (by omega : ¬p.1 = i)]
    exact ih h.2

theorem lookupPlan_mem {ps : List (Nat × Int)} {i : Nat} {v : Int}
    (h : lookupPlan ps i = some v) : (i, v) ∈ ps := by
  induction ps with
  | nil => simp [lookupPlan] at h
  | cons p ps ih =>
    simp only [lookupPlan] at h
    split at h
    · rename_i heq
      cases h
      simp [← heq]
    · exact List.mem_cons_of_mem _ (ih h)

theorem updRow_nil (l : Transaction) : updRow [] l = l := rfl

theorem updRow_cons_eq {p : Nat × Int} {ps : List (Nat × Int)}
    {l : Transaction} (h : l.id = p.1) :
    updRow (p :: ps) l = { l with remainingAmount := p.2 } := by
  simp [updRow, lookupPlan, h.symm]

theorem updRow_cons_ne {p : Nat × Int} {ps : List (Nat × Int)}
    {l : Transaction} (h : ¬l.id = p.1) :
    updRow (p :: ps) l = updRow ps l := by
  have h' : ¬p.1 = l.id := fun hh => h hh.symm
  simp [updRow, lookupPlan, h']

theorem updRow_of_none {plan : List (Nat × Int)} {l : Transaction}
    (h : lookupPlan plan l.id = none) : updRow plan l = l := by
  simp [updRow, h]

theorem updRow_id (plan : List (Nat × Int)) (l : Transaction) :
    (updRow plan l).id = l.id := by
  unfold updRow
  cases lookupPlan plan l.id <;> rfl

theorem updRow_userId (plan : List (Nat × Int)) (l : Transaction) :
    (updRow plan l).userId = l.userId := by
  unfold updRow
  cases lookupPlan plan l.id <;> rfl

theorem updRow_amount (plan : List (Nat × Int)) (l : Transaction) :
    (updRow plan l).amount = l.amount := by
  unfold updRow
  cases lookupPlan plan l.id <;> rfl

theorem updRow_createdAt (plan : List (Nat × Int)) (l : Transaction) :
    (updRow plan l).createdAt = l.createdAt := by
  unfold updRow
  cases lookupPlan plan l.id <;> rfl

theorem updRow_expiresAt (plan : List (Nat × Int)) (l : Transaction) :
    (updRow plan l).expiresAt = l.expiresAt := by
  unfold updRow
  cases lookupPlan plan l.id <;> rfl

/-- The effect of a whole UPDATE plan on the table, pointwise: each row keeps
its value unless the plan names its id. -/
theorem applyUpdates_eq_map (plan : List (Nat × Int))
    (hnd : (plan.map Prod.fst).Nodup) (lots : List Transaction) :
    applyUpdates lots plan = lots.map (updRow plan) := by
  induction plan generalizing lots with
  | nil =>
    have h1 : lots.map (updRow []) = lots.map (fun l => l) :=
      List.map_congr_left fun l _ => updRow_nil l
    rw [applyUpdates_nil, h1, List.map_id']
  | cons p ps ih =>
    simp only [List.map_cons, List.nodup_cons] at hnd
    rw [applyUpdates_cons, ih hnd.2]
    simp only [setRemaining, List.map_map]
    refine List.map_congr_left fun l _ => ?_
    simp only [Function.comp_apply]
    by_cases h : l.id = p.1
    · rw [if_pos h, updRow_cons_eq h]
      refine updRow_of_none ?_
      exact lookupPlan_eq_none (by
        have : ({ l with remainingAmount := p.2 } : Transaction).id = l.id := rfl
        rw [this, h]; exact hnd.1)
    · rw [if_neg h, updRow_cons_ne h]

/-! ### Properties of the deduction loop -/

theorem deductPlan_nonpos {amount : Int} (h : amount ≤ 0) :
    ∀ rs : List Transaction, deductPlan rs amount = [] := by
  intro rs
  cases rs with
  | nil => rfl
  | cons r rs => simp [deductPlan, h]

theorem deductPlan_ids_sublist :
    ∀ (rs : List Transaction) (amount : Int),
      ((deductPlan rs amount).map Prod.fst).Sublist (rs.map Transaction.id) := by
  intro rs
  induction rs with
  | nil => intro amount; simp [deductPlan]
  | cons r rs ih =>
    intro amount
    by_cases h : amount ≤ 0
    · rw [deductPlan_nonpos h]
      simp
    · simp only [deductPlan, if_neg h, List.map_cons]
      exact (ih _).cons₂ r.id

theorem deductPlan_ids_nodup {rs : List Transaction} {amount : Int}
    (hnd : (rs.map Transaction.id).Nodup) :
    ((deductPlan rs amount).map Prod.fst).Nodup :=
  (deductPlan_ids_sublist rs amount).nodup hnd

/-- Every UPDATE the loop issues targets a locked row and writes a value
between 0 and that row's previous remainder. -/
theorem deductPlan_mem_bound :
    ∀ (rs : List Transaction) (amount : Int),
      (∀ r ∈ rs, 0 ≤ r.remainingAmount) →
      ∀ p ∈ deductPlan rs amount,
        ∃ r ∈ rs, p.1 = r.id ∧ 0 ≤ p.2 ∧ p.2 ≤ r.remainingAmount := by
  intro rs
  induction rs with
  | nil => intro amount _ p hp; simp [deductPlan] at hp
  | cons r rs ih =>
    intro amount hpos p hp
    by_cases h : amount ≤ 0
    · rw [deductPlan_nonpos h] at hp
      simp at hp
    · simp only [deductPlan, if_neg h, List.mem_cons] at hp
      rcases hp with hp | hp
      · refine ⟨r, by simp, ?_⟩
        have hr := hpos r (by simp)
        subst hp
        constructor
        · rfl
        · constructor <;> · simp only []; split <;> omega
      · obtain ⟨r', hr', hgoal⟩ :=
          ih _ (fun x hx => hpos x (List.mem_cons_of_mem _ hx)) p hp
        exact ⟨r', List.mem_cons_of_mem _ hr', hgoal⟩

/-- Closed form of the loop: after a withdrawal of `amount`, the `j`-th locked
row has lost `min(its remainder, max(amount - sum of the remainders before it,
0))`; in particular rows after the point where the running prefix sum reaches
`amount` are untouched. -/
theorem deductPlan_value :
    ∀ (rs : List Transaction) (amount : Int),
      (∀ r ∈ rs, 0 ≤ r.remainingAmount) →
      (rs.map Transaction.id).Nodup →
      0 ≤ amount →
      ∀ (j : Nat) (hj : j < rs.length),
        (lookupPlan (deductPlan rs amount) (rs.get ⟨j, hj⟩).id).getD
            (rs.get ⟨j, hj⟩).remainingAmount
          = (rs.get ⟨j, hj⟩).remainingAmount -
              min (rs.get ⟨j, hj⟩).remainingAmount
                (max (amount - sumRemain (rs.take j)) 0) := by
  intro rs
  induction rs with
  | nil => intro amount _ _ _ j hj; simp at hj
  | cons r rs ih =>
    intro amount hpos hnd h0 j hj
    simp only [List.map_cons, List.nodup_cons] at hnd
    have hposr := hpos r (by simp)
    have hpos' : ∀ x ∈ rs, 0 ≤ x.remainingAmount :=
      fun x hx => hpos x (List.mem_cons_of_mem _ hx)
    cases j with
    | zero =>
      simp only [List.get, List.take, sumRemain_nil]
      by_cases h : amount ≤ 0
      · have ha : amount = 0 := le_antisymm h h0
        rw [deductPlan_nonpos h]
        simp only [lookupPlan, Option.getD_none, ha, min_def, max_def]
        split_ifs <;> omega
      · simp only [deductPlan, if_neg h, lookupPlan, if_pos rfl,
          Option.getD_some, min_def, max_def]
        split_ifs <;> (try simp only [Option.getD_some]) <;> omega
    | succ j =>
      have hj' : j < rs.length := Nat.lt_of_succ_lt_succ hj
      have hget : (r :: rs).get ⟨j + 1, hj⟩ = rs.get ⟨j, hj'⟩ := rfl
      rw [hget]
      have htake : sumRemain ((r :: rs).take (j + 1))
          = r.remainingAmount + sumRemain (rs.take j) := by
        simp [List.take, sumRemain_cons]
      rw [htake]
      have hS : 0 ≤ sumRemain (rs.take j) :=
        sumRemain_nonneg fun x hx => hpos' x ((List.take_sublist j rs).subset hx)
      have hremj : 0 ≤ (rs.get ⟨j, hj'⟩).remainingAmount :=
        hpos' _ (List.get_mem rs j hj')
      by_cases h : amount ≤ 0
      · have ha : amount = 0 := le_antisymm h h0
        rw [deductPlan_nonpos h]
        simp only [lookupPlan, Option.getD_none, ha, min_def, max_def]
        split_ifs <;> omega
      · simp only [deductPlan, if_neg h]
        have hne : ¬r.id = (rs.get ⟨j, hj'⟩).id := by
          intro hh
          exact hnd.1 (hh ▸ (List.mem_map_of_mem Transaction.id
            (List.get_mem rs j hj')))
        simp only [lookupPlan, if_neg hne]
        set d : Int := if amount > r.remainingAmount then r.remainingAmount
          else amount with hd
        have hdle : 0 ≤ d ∧ d ≤ amount ∧
            (d = r.remainingAmount ∨ d = amount) := by
          rw [hd]; split_ifs <;> omega
        rw [ih (amount - d) hpos' hnd.2 (by omega) j hj']
        have : min (rs.get ⟨j, hj'⟩).remainingAmount
              (max (amount - d - sumRemain (rs.take j)) 0)
            = min (rs.get ⟨j, hj'⟩).remainingAmount
              (max (amount - (r.remainingAmount + sumRemain (rs.take j))) 0) := by
          rcases hdle.2.2 with hh | hh
          · rw [hh]; ring_nf
          · have hle : amount ≤ r.remainingAmount := by
              rw [hd] at hh
              by_contra hc
              simp only [if_pos (by omega : amount > r.remainingAmount)] at hh
              omega
            simp only [min_def, max_def]
            split_ifs <;> omega
        rw [this]

/-- The two revisions' deduction loops are extensionally the same. -/
theorem deductPlanFirst_eq_deductPlan :
    ∀ (rs : List Transaction) (amount : Int),
      deductPlanFirst rs amount = deductPlan rs amount := by
  intro rs
  induction rs with
  | nil => intro amount; rfl
  | cons r rs ih =>
    intro amount
    by_cases h : amount ≤ 0
    · rw [deductPlan_nonpos h]
      simp [deductPlanFirst, h]
    · by_cases hc : r.remainingAmount ≥ amount
      · simp only [deductPlanFirst, if_neg h, if_pos hc, deductPlan,
          if_neg (by omega : ¬amount > r.remainingAmount)]
        rw [deductPlan_nonpos (by omega : amount - amount ≤ 0)]
      · simp only [deductPlanFirst, if_neg h, if_neg hc, deductPlan,
          if_pos (by omega : amount > r.remainingAmount), ih,
          Int.sub_self]

/-! ### Owner sums -/

theorem sumOwnerAll_cons (uid : Nat) (l : Transaction) (ls : List Transaction) :
    sumOwnerAll uid (l :: ls) =
      (if l.userId = uid then l.remainingAmount else 0) + sumOwnerAll uid ls := by
  simp only [sumOwnerAll, List.filter_cons]
  by_cases h : l.userId = uid
  · simp [h]
  · simp [h]

theorem sumOwnerAmount_cons (uid : Nat) (l : Transaction)
    (ls : List Transaction) :
    sumOwnerAmount uid (l :: ls) =
      (if l.userId = uid then l.amount else 0) + sumOwnerAmount uid ls := by
  simp only [sumOwnerAmount, List.filter_cons]
  by_cases h : l.userId = uid
  · simp [h]
  · simp [h]

theorem sumOwnerAll_append (uid : Nat) (xs ys : List Transaction) :
    sumOwnerAll uid (xs ++ ys) = sumOwnerAll uid xs + sumOwnerAll uid ys := by
  simp [sumOwnerAll, List.filter_append]

theorem sumOwnerAmount_append (uid : Nat) (xs ys : List Transaction) :
    sumOwnerAmount uid (xs ++ ys) =
      sumOwnerAmount uid xs + sumOwnerAmount uid ys := by
  simp [sumOwnerAmount, List.filter_append]

theorem sumOwnerAll_nonneg {uid : Nat} {lots : List Transaction}
    (h : ∀ l ∈ lots, 0 ≤ l.remainingAmount) : 0 ≤ sumOwnerAll uid lots := by
  induction lots with
  | nil => simp [sumOwnerAll]
  | cons l ls ih =>
    rw [sumOwnerAll_cons]
    have h1 := h l (by simp)
    have h2 := ih fun x hx => h x (by simp [hx])
    by_cases hu : l.userId = uid <;> simp [hu] <;> omega

/-- A row is a member of the table it was updated into, as long as the update
targets a different id. -/
theorem mem_setRemaining_of_ne {lots : List Transaction} {r : Transaction}
    {i : Nat} {v : Int} (hmem : r ∈ lots) (h : ¬r.id = i) :
    r ∈ setRemaining lots i v := by
  have : r = if r.id = i then { r with remainingAmount := v } else r :=
    (if_neg h).symm
  rw [setRemaining]
  exact this ▸ List.mem_map_of_mem _ hmem

theorem setRemaining_eq_of_not_mem {lots : List Transaction} {i : Nat}
    {v : Int} (h : i ∉ lots.map Transaction.id) : setRemaining lots i v = lots := by
  rw [setRemaining]
  have : lots.map (fun l =>
      if l.id = i then { l with remainingAmount := v } else l) =
      lots.map fun l => l := by
    refine List.map_congr_left fun l hl => ?_
    have : ¬l.id = i := fun hh => h (hh ▸ List.mem_map_of_mem _ hl)
    rw [if_neg this]
  rw [this, List.map_id']

/-- Effect of a single UPDATE on an owner sum. -/
theorem sumOwnerAll_setRemaining (uid : Nat) :
    ∀ (lots : List Transaction) (r : Transaction) (v : Int),
      r ∈ lots → (lots.map Transaction.id).Nodup →
      sumOwnerAll uid (setRemaining lots r.id v)
        = sumOwnerAll uid lots +
            (if r.userId = uid then v - r.remainingAmount else 0) := by
  intro lots
  induction lots with
  | nil => intro r v hmem; simp at hmem
  | cons l ls ih =>
    intro r v hmem hnd
    simp only [List.map_cons, List.nodup_cons] at hnd
    rw [show setRemaining (l :: ls) r.id v =
      (if l.id = r.id then { l with remainingAmount := v } else l)
        :: setRemaining ls r.id v from rfl]
    rcases List.mem_cons.mp hmem with hmem | hmem
    · subst hmem
      rw [if_pos rfl, setRemaining_eq_of_not_mem hnd.1, sumOwnerAll_cons,
        sumOwnerAll_cons]
      have huid : ({ r with remainingAmount := v } : Transaction).userId
          = r.userId := rfl
      have hrem : ({ r with remainingAmount := v } : Transaction).remainingAmount
          = v := rfl
      rw [huid, hrem]
      by_cases hu : r.userId = uid
      · rw [if_pos hu, if_pos hu, if_pos hu]; omega
      · rw [if_neg hu, if_neg hu, if_neg hu]; omega
    · have hne : ¬l.id = r.id := by
        intro hh
        exact hnd.1 (hh ▸ List.mem_map_of_mem _ hmem)
      rw [if_neg hne, sumOwnerAll_cons, sumOwnerAll_cons, ih r v hmem hnd.2]
      omega

/-- Effect of the whole deduction loop on an owner's total remainder: a
committed withdrawal of `amount` from rows that all belong to `u` moves the
total of `u` down by exactly `amount` and leaves every other owner's total
unchanged. -/
theorem sumOwnerAll_applyUpdates (u uid : Nat) :
    ∀ (records : List Transaction) (amount : Int) (lots : List Transaction),
      (lots.map Transaction.id).Nodup →
      (∀ r ∈ records, r ∈ lots) →
      (records.map Transaction.id).Nodup →
      (∀ r ∈ records, r.userId = u ∧ 0 < r.remainingAmount) →
      0 ≤ amount → amount ≤ sumRemain records →
      sumOwnerAll uid (applyUpdates lots (deductPlan records amount))
        = sumOwnerAll uid lots - (if u = uid then amount else 0) := by
  intro records
  induction records with
  | nil =>
    intro amount lots _ _ _ _ h0 hle
    rw [show deductPlan [] amount = [] from rfl, applyUpdates_nil]
    rw [sumRemain_nil] at hle
    have : amount = 0 := le_antisymm hle h0
    subst this
    split <;> omega
  | cons r rs ih =>
    intro amount lots hndl hsub hndr hu h0 hle
    simp only [List.map_cons, List.nodup_cons] at hndr
    have hur := hu r (by simp)
    by_cases h : amount ≤ 0
    · have : amount = 0 := le_antisymm h h0
      subst this
      rw [deductPlan_nonpos (by omega), applyUpdates_nil]
      split <;> omega
    · rw [sumRemain_cons] at hle
      have hSpos : 0 ≤ sumRemain rs :=
        sumRemain_nonneg fun x hx => le_of_lt (hu x (by simp [hx])).2
      simp only [deductPlan, if_neg h]
      set d : Int := if amount > r.remainingAmount then r.remainingAmount
        else amount with hd
      have hdfacts : 0 ≤ d ∧ d ≤ amount ∧ d ≤ r.remainingAmount ∧
          (d = r.remainingAmount ∨ amount ≤ r.remainingAmount) := by
        rw [hd]; split_ifs <;> omega
      rw [applyUpdates_cons]
      have hrl := hsub r (by simp)
      have hstep := sumOwnerAll_setRemaining uid lots r
        (r.remainingAmount - d) hrl hndl
      have hrs_mem : ∀ x ∈ rs, x ∈ setRemaining lots r.id
          (r.remainingAmount - d) := by
        intro x hx
        refine mem_setRemaining_of_ne (hsub x (by simp [hx])) ?_
        intro hh
        exact hndr.1 (hh ▸ List.mem_map_of_mem _ hx)
      have hnd' : ((setRemaining lots r.id
          (r.remainingAmount - d)).map Transaction.id).Nodup := by
        rw [setRemaining_map_id]; exact hndl
      have hrec := ih (amount - d) _ hnd' hrs_mem hndr.2
        (fun x hx => hu x (by simp [hx])) (by omega)
        (by rcases hdfacts.2.2.2 with hh | hh <;> omega)
      rw [hrec, hstep]
      rw [hur.1]
      split <;> omega

/-- The deduction loop never touches `amount`; owner grant totals are
preserved by any UPDATE plan. -/
theorem sumOwnerAmount_setRemaining (uid : Nat) (lots : List Transaction)
    (i : Nat) (v : Int) :
    sumOwnerAmount uid (setRemaining lots i v) = sumOwnerAmount uid lots := by
  induction lots with
  | nil => rfl
  | cons l ls ih =>
    rw [show setRemaining (l :: ls) i v =
      (if l.id = i then { l with remainingAmount := v } else l)
        :: setRemaining ls i v from rfl, sumOwnerAmount_cons,
      sumOwnerAmount_cons, ih]
    by_cases h : l.id = i
    · rw [if_pos h]
    · rw [if_neg h]

theorem sumOwnerAmount_applyUpdates (uid : Nat) (plan : List (Nat × Int)) :
    ∀ lots : List Transaction,
      sumOwnerAmount uid (applyUpdates lots plan) = sumOwnerAmount uid lots := by
  induction plan with
  | nil => intro lots; rfl
  | cons p ps ih =>
    intro lots
    rw [applyUpdates_cons, ih, sumOwnerAmount_setRemaining]

/-- Every row of the table after a withdrawal either is an original row,
untouched, or agrees with an original row on every field except
`remaining_amount`, which moved down but not below zero. -/
theorem applyUpdates_shape {lots records : List Transaction} {amount : Int}
    (hndl : (lots.map Transaction.id).Nodup)
    (hndr : (records.map Transaction.id).Nodup)
    (hsub : ∀ r ∈ records, r ∈ lots)
    (hpos : ∀ r ∈ records, 0 ≤ r.remainingAmount) :
    ∀ l' ∈ applyUpdates lots (deductPlan records amount),
      ∃ l ∈ lots, (l' = l ∨
        (l'.id = l.id ∧ l'.userId = l.userId ∧ l'.amount = l.amount ∧
          l'.createdAt = l.createdAt ∧ l'.expiresAt = l.expiresAt ∧
          0 ≤ l'.remainingAmount ∧ l'.remainingAmount ≤ l.remainingAmount)) := by
  intro l' hl'
  rw [applyUpdates_eq_map _ (deductPlan_ids_nodup hndr)] at hl'
  obtain ⟨l, hl, rfl⟩ := List.mem_map.mp hl'
  refine ⟨l, hl, ?_⟩
  unfold updRow
  cases hlook : lookupPlan (deductPlan records amount) l.id with
  | none => exact Or.inl rfl
  | some v =>
    obtain ⟨r, hr, hid, hv0, hvle⟩ :=
      deductPlan_mem_bound records amount hpos _ (lookupPlan_mem hlook)
    have heq : l = r := eq_of_mem_of_id_eq hndl hl (hsub r hr) hid
    subst heq
    exact Or.inr ⟨rfl, rfl, rfl, rfl, rfl, hv0, hvle⟩

/-! ### The lock query -/

theorem lockEligible_selSpec2 (lots : List Transaction) (uid now : Nat) :
    SelSpec2 lots uid now (lockEligible lots uid now) :=
  ⟨List.perm_insertionSort keyLe _, List.sorted_insertionSort keyLe _⟩

theorem selSpec2_mem {lots records : List Transaction} {uid now : Nat}
    (h : SelSpec2 lots uid now records) {r : Transaction} (hr : r ∈ records) :
    r ∈ lots ∧ r.userId = uid ∧ now < r.expiresAt ∧ 0 < r.remainingAmount := by
  have := h.1.mem_iff.mp hr
  have hm := List.mem_filter.mp this
  exact ⟨hm.1, eligible_iff.mp hm.2⟩

theorem selSpec2_nodup_ids {lots records : List Transaction} {uid now : Nat}
    (hnd : (lots.map Transaction.id).Nodup)
    (h : SelSpec2 lots uid now records) :
    (records.map Transaction.id).Nodup := by
  have hfil : ((lots.filter (eligible uid now)).map Transaction.id).Nodup :=
    ((lots.filter_sublist).map Transaction.id).nodup hnd
  exact ((h.1.map Transaction.id).nodup_iff).mpr hfil

theorem selSpec2_sum {lots records : List Transaction} {uid now : Nat}
    (h : SelSpec2 lots uid now records) :
    sumRemain records = sumBalance lots uid now :=
  sumRemain_perm h.1

theorem selSpec1_mem {lots records : List Transaction} {uid now : Nat}
    (h : SelSpec1 lots uid now records) {r : Transaction} (hr : r ∈ records) :
    r ∈ lots ∧ r.userId = uid ∧ now < r.expiresAt ∧ 0 < r.remainingAmount := by
  have := h.1.mem_iff.mp hr
  have hm := List.mem_filter.mp this
  exact ⟨hm.1, eligible_iff.mp hm.2⟩

/-! ### find? lemmas -/

theorem findById_eq_some_self {lots : List Transaction}
    (hnd : (lots.map Transaction.id).Nodup) {l : Transaction} (hl : l ∈ lots) :
    findById lots l.id = some l := by
  induction lots with
  | nil => simp at hl
  | cons x xs ih =>
    simp only [List.map_cons, List.nodup_cons] at hnd
    rcases List.mem_cons.mp hl with hl | hl
    · subst hl
      simp [findById, List.find?]
    · have hne : ¬x.id = l.id := by
        intro hh
        exact hnd.1 (hh ▸ List.mem_map_of_mem _ hl)
      have hne' : ¬(x.id == l.id) = true := by
        simpa using hne
      have hxs := ih hnd.2 hl
      simp only [findById] at hxs
      simp only [findById, List.find?, hne', hxs]

theorem findById_map_of_id_pres {f : Transaction → Transaction}
    (hf : ∀ l, (f l).id = l.id) :
    ∀ (lots : List Transaction) (i : Nat),
      findById (lots.map f) i = (findById lots i).map f := by
  intro lots
  induction lots with
  | nil => intro i; rfl
  | cons x xs ih =>
    intro i
    simp only [findById, List.map_cons, List.find?, hf x]
    cases h : x.id == i
    · simpa [findById] using ih i
    · rfl

/-! ### Trace invariants -/

theorem stInv_st0 : StInv st0 := by
  constructor
  · intro l hl; simp [st0] at hl
  · simp [st0]

theorem runOp_grant_eq (st : St) (now u : Nat) (a : Int) (ld : Nat) :
    runOp st (now, .grant u a ld) =
      { lots := st.lots ++
          [{ id := st.nextId, userId := u, amount := a, createdAt := now,
             expiresAt := now + ld * day, remainingAmount := a }],
        nextId := st.nextId + 1 } := rfl

/-- Unpack a successful withdrawal into its two components. -/
theorem withdrawGiven_ok {lots records : List Transaction} {amount : Int}
    {s : List Transaction}
    (h : withdrawGiven lots records amount = .ok s) :
    ¬sumRemain records < amount ∧
      s = applyUpdates lots (deductPlan records amount) := by
  by_cases hsum : sumRemain records < amount
  · rw [withdrawGiven, if_pos hsum] at h
    cases h
  · rw [withdrawGiven, if_neg hsum] at h
    cases h
    exact ⟨hsum, rfl⟩

theorem withdrawGiven_error {lots records : List Transaction} {amount : Int}
    {e : LedgerError}
    (h : withdrawGiven lots records amount = .error e) :
    sumRemain records < amount ∧ e = .insufficientFunds := by
  by_cases hsum : sumRemain records < amount
  · rw [withdrawGiven, if_pos hsum] at h
    cases h
    exact ⟨hsum, rfl⟩
  · rw [withdrawGiven, if_neg hsum] at h
    cases h

/-- Succeeding withdrawals commit their updated table. -/
theorem runOp_withdraw_ok_eq {st : St} {now u : Nat} {a : Int}
    {lots' : List Transaction}
    (h : withdrawBonusPoints st.lots u a now = .ok lots') :
    runOp st (now, .withdraw u a) = { st with lots := lots' } := by
  simp [runOp, h]

/-- Failing withdrawals roll back: the store is untouched. -/
theorem runOp_withdraw_error_eq {st : St} {now u : Nat} {a : Int}
    {e : LedgerError}
    (h : withdrawBonusPoints st.lots u a now = .error e) :
    runOp st (now, .withdraw u a) = st := by
  simp [runOp, h]

theorem stInv_mk {lots : List Transaction} {nextId : Nat}
    (h1 : ∀ l ∈ lots,
      0 ≤ l.remainingAmount ∧ l.remainingAmount ≤ l.amount ∧ l.id < nextId)
    (h2 : (lots.map Transaction.id).Nodup) : StInv ⟨lots, nextId⟩ :=
  ⟨h1, h2⟩

theorem stInv_runOp {st : St} (hinv : StInv st) (p : Nat × Op)
    (hpos : 0 < opAmount p.2) : StInv (runOp st p) := by
  obtain ⟨now, op⟩ := p
  cases op with
  | grant u a ld =>
    rw [runOp_grant_eq]
    simp only [opAmount] at hpos
    refine stInv_mk ?_ ?_
    · intro l hl
      rcases List.mem_append.mp hl with hl | hl
      · have := hinv.1 l hl
        exact ⟨this.1, this.2.1, by omega⟩
      · simp only [List.mem_singleton] at hl
        subst hl
        exact ⟨(by omega : (0 : Int) ≤ a), le_refl a,
          (by omega : st.nextId < st.nextId + 1)⟩
    · simp only [List.map_append, List.map_cons, List.map_nil]
      rw [List.nodup_append]
      refine ⟨hinv.2, List.nodup_singleton _, ?_⟩
      intro x hx hx'
      simp only [List.mem_singleton] at hx'
      subst hx'
      obtain ⟨l, hl, hid⟩ := List.mem_map.mp hx
      have hlt := (hinv.1 l hl).2.2
      have hid2 : l.id = st.nextId := hid
      omega
  | withdraw u a =>
    cases h : withdrawBonusPoints st.lots u a now with
    | error e =>
      rw [runOp_withdraw_error_eq h]
      exact hinv
    | ok lots' =>
      rw [runOp_withdraw_ok_eq h]
      obtain ⟨hsum, rfl⟩ := withdrawGiven_ok h
      have hsel := lockEligible_selSpec2 st.lots u now
      have hndr := selSpec2_nodup_ids hinv.2 hsel
      refine stInv_mk ?_ ?_
      · intro l' hl'
        obtain ⟨l, hl, hshape⟩ := applyUpdates_shape hinv.2 hndr
          (fun r hr => (selSpec2_mem hsel hr).1)
          (fun r hr => le_of_lt (selSpec2_mem hsel hr).2.2.2) l' hl'
        have hbase := hinv.1 l hl
        rcases hshape with rfl | ⟨hid, _, ham, _, _, h0, hle⟩
        · exact hbase
        · exact ⟨h0, by omega, by omega⟩
      · rw [applyUpdates_map_id]
        exact hinv.2

theorem runOp_withdraw_sums (uid : Nat) {st : St} (hinv : StInv st)
    (now u : Nat) (a : Int) (ha : 0 < a) :
    sumOwnerAll uid (runOp st (now, .withdraw u a)).lots
      = sumOwnerAll uid st.lots -
        (if u = uid ∧ (withdrawBonusPoints st.lots u a now).isOk = true
          then a else 0) ∧
    sumOwnerAmount uid (runOp st (now, .withdraw u a)).lots
      = sumOwnerAmount uid st.lots := by
  cases h : withdrawBonusPoints st.lots u a now with
  | error e =>
    rw [runOp_withdraw_error_eq h]
    simp [h, Except.isOk, Except.toBool]
  | ok lots' =>
    rw [runOp_withdraw_ok_eq h]
    obtain ⟨hsum, rfl⟩ := withdrawGiven_ok h
    have hsel := lockEligible_selSpec2 st.lots u now
    have hndr := selSpec2_nodup_ids hinv.2 hsel
    constructor
    · rw [sumOwnerAll_applyUpdates u uid _ a st.lots hinv.2
        (fun r hr => (selSpec2_mem hsel hr).1) hndr
        (fun r hr => ⟨(selSpec2_mem hsel hr).2.1, (selSpec2_mem hsel hr).2.2.2⟩)
        (le_of_lt ha) (by omega)]
      simp [h, Except.isOk, Except.toBool]
    · exact sumOwnerAmount_applyUpdates uid _ st.lots

theorem runOp_grant_sums (uid : Nat) (st : St) (now u : Nat) (a : Int)
    (ld : Nat) :
    sumOwnerAll uid (runOp st (now, .grant u a ld)).lots
      = sumOwnerAll uid st.lots + (if u = uid then a else 0) ∧
    sumOwnerAmount uid (runOp st (now, .grant u a ld)).lots
      = sumOwnerAmount uid st.lots + (if u = uid then a else 0) := by
  rw [runOp_grant_eq]
  constructor
  · rw [sumOwnerAll_append, sumOwnerAll_cons]
    by_cases h : u = uid <;> simp [sumOwnerAll, h]
  · rw [sumOwnerAmount_append, sumOwnerAmount_cons]
    by_cases h : u = uid <;> simp [sumOwnerAmount, h]

/-- The main trace invariant: over any run with positive amounts, the store
invariant is preserved, an owner's total remainder moves exactly by grants
minus successful withdrawals, and an owner's total granted amount moves
exactly by grants. -/
theorem trace_main (uid : Nat) :
    ∀ (ops : List (Nat × Op)) (st : St),
      (∀ p ∈ ops, 0 < opAmount p.2) → StInv st →
      StInv (runOps st ops) ∧
      sumOwnerAll uid (runOps st ops).lots
        = sumOwnerAll uid st.lots + grantedTotal uid ops
            - withdrawnTotal uid st ops ∧
      sumOwnerAmount uid (runOps st ops).lots
        = sumOwnerAmount uid st.lots + grantedTotal uid ops := by
  intro ops
  induction ops with
  | nil =>
    intro st _ hinv
    exact ⟨hinv, by simp [runOps, grantedTotal, withdrawnTotal], by
      simp [runOps, grantedTotal, withdrawnTotal]⟩
  | cons p rest ih =>
    intro st hpos hinv
    obtain ⟨now, op⟩ := p
    have hp : 0 < opAmount op := hpos (now, op) (by simp)
    have hrest : ∀ q ∈ rest, 0 < opAmount q.2 :=
      fun q hq => hpos q (by simp [hq])
    have hinv' : StInv (runOp st (now, op)) := stInv_runOp hinv _ hp
    obtain ⟨h1, h2, h3⟩ := ih (runOp st (now, op)) hrest hinv'
    have hrun : runOps st ((now, op) :: rest)
        = runOps (runOp st (now, op)) rest := rfl
    refine ⟨hrun ▸ h1, ?_, ?_⟩
    · rw [hrun, h2]
      cases op with
      | grant u a ld =>
        rw [(runOp_grant_sums uid st now u a ld).1]
        simp only [grantedTotal, withdrawnTotal]
        ring
      | withdraw u a =>
        rw [(runOp_withdraw_sums uid hinv now u a hp).1]
        simp only [grantedTotal, withdrawnTotal]
        ring
    · rw [hrun, h3]
      cases op with
      | grant u a ld =>
        rw [(runOp_grant_sums uid st now u a ld).2]
        simp only [grantedTotal]
        ring
      | withdraw u a =>
        rw [(runOp_withdraw_sums uid hinv now u a hp).2]
        simp only [grantedTotal]

/-! ### The expiration breakdown -/

theorem find?_pairs (g : Nat → Int) (d : Nat) :
    ∀ ds : List Nat,
      (ds.map fun x => (x, g x)).find? (fun p => p.1 == d)
        = if d ∈ ds then some (d, g d) else none := by
  intro ds
  induction ds with
  | nil => simp
  | cons x ds ih =>
    simp only [List.map_cons]
    by_cases h : x = d
    · subst h
      rw [List.find?_cons_of_pos _ (by simp)]
      simp
    · rw [List.find?_cons_of_neg _ (by simpa using h), ih]
      have h' : ¬d = x := fun hh => h hh.symm
      by_cases hm : d ∈ ds
      · simp [hm, List.mem_cons, h']
      · simp [hm, List.mem_cons, h']

theorem lookupAmount_expirationBreakdown (lots : List Transaction)
    (uid now d : Nat) :
    lookupAmount (expirationBreakdown lots uid now) d
      = if d ∈ (lots.filter (inWindow uid now)).map
            (fun l => dateOf l.expiresAt)
        then dateSum (lots.filter (inWindow uid now)) d else 0 := by
  unfold expirationBreakdown lookupAmount
  rw [find?_pairs]
  have hmem : (d ∈ (((lots.filter (inWindow uid now)).map
        fun l => dateOf l.expiresAt).dedup).insertionSort (· ≤ ·)) ↔
      d ∈ (lots.filter (inWindow uid now)).map fun l => dateOf l.expiresAt := by
    rw [List.mem_insertionSort, List.mem_dedup]
  by_cases h : d ∈ (lots.filter (inWindow uid now)).map
      fun l => dateOf l.expiresAt
  · rw [if_pos (hmem.mpr h), if_pos h]
  · rw [if_neg (fun hh => h (hmem.mp hh)), if_neg h]

theorem sum_filter_pos (P : Transaction → Bool) :
    ∀ lots : List Transaction, (∀ l ∈ lots, 0 ≤ l.remainingAmount) →
      ((lots.filter fun l => P l && decide (0 < l.remainingAmount)).map
          Transaction.remainingAmount).sum
        = ((lots.filter P).map Transaction.remainingAmount).sum := by
  intro lots
  induction lots with
  | nil => intro _; rfl
  | cons l ls ih =>
    intro hpos
    have h0 := hpos l (by simp)
    have ih' := ih fun x hx => hpos x (by simp [hx])
    simp only [List.filter_cons]
    by_cases hP : P l = true
    · by_cases hR : 0 < l.remainingAmount
      · simp [hP, hR, ih']
      · have hz : l.remainingAmount = 0 := by omega
        simp [hP, hR, ih', hz]
    · simp [hP, ih']

/-- The per-date group sum computed by the query equals the sum the spec's
wording prescribes, as long as remainders are nonnegative (which the schema
CHECK guarantees): rows with remainder 0 are filtered out by the query but
contribute 0 anyway. -/
theorem dateSum_win_eq_spec (lots : List Transaction) (uid now d : Nat)
    (hpos : ∀ l ∈ lots, 0 ≤ l.remainingAmount) :
    dateSum (lots.filter (inWindow uid now)) d = specWindowSum lots uid now d := by
  unfold dateSum sumRemain specWindowSum
  rw [List.filter_filter]
  rw [← sum_filter_pos (fun l => l.userId == uid && decide (now < l.expiresAt)
    && decide (l.expiresAt ≤ now + 30 * day) && (dateOf l.expiresAt == d))
    lots hpos]
  have hfil : (lots.filter fun a =>
        (dateOf a.expiresAt == d) && inWindow uid now a)
      = lots.filter fun l => l.userId == uid && decide (now < l.expiresAt)
          && decide (l.expiresAt ≤ now + 30 * day) && (dateOf l.expiresAt == d)
          && decide (0 < l.remainingAmount) := by
    refine List.filter_congr fun x _ => ?_
    simp only [inWindow]
    simp only [Bool.and_assoc, Bool.and_comm, Bool.and_left_comm]
  rw [hfil]

theorem specWindowSum_eq_zero (lots : List Transaction) (uid now d : Nat)
    (hpos : ∀ l ∈ lots, 0 ≤ l.remainingAmount)
    (h : d ∉ (lots.filter (inWindow uid now)).map fun l => dateOf l.expiresAt) :
    specWindowSum lots uid now d = 0 := by
  unfold specWindowSum
  refine List.sum_eq_zero ?_
  intro x hx
  obtain ⟨l, hl, rfl⟩ := List.mem_map.mp hx
  have hfl := List.mem_filter.mp hl
  have hc := hfl.2
  simp only [Bool.and_eq_true, decide_eq_true_iff, beq_iff_eq] at hc
  by_contra hne
  have h0 := hpos l hfl.1
  have hposl : 0 < l.remainingAmount := by omega
  refine h ?_
  have hwin : inWindow uid now l = true := by
    simp only [inWindow, Bool.and_eq_true, decide_eq_true_iff, beq_iff_eq]
    exact ⟨⟨⟨hc.1.1.1, hc.1.1.2⟩, hc.1.2⟩, hposl⟩
  rw [← hc.2]
  exact List.mem_map_of_mem _ (List.mem_filter.mpr ⟨hfl.1, hwin⟩)

theorem breakdown_dates_sorted (lots : List Transaction) (uid now : Nat) :
    ((expirationBreakdown lots uid now).map Prod.fst).Pairwise (· < ·) := by
  unfold expirationBreakdown
  rw [List.map_map]
  have hid : ((fun p => Prod.fst p) ∘ fun d =>
      (d, dateSum (lots.filter (inWindow uid now)) d)) = fun d => d := rfl
  rw [hid, List.map_id']
  have hsorted : List.Sorted (· ≤ ·)
      ((((lots.filter (inWindow uid now)).map
        fun l => dateOf l.expiresAt).dedup).insertionSort (· ≤ ·)) :=
    List.sorted_insertionSort _ _
  have hnodup : ((((lots.filter (inWindow uid now)).map
      fun l => dateOf l.expiresAt).dedup).insertionSort (· ≤ ·)).Nodup :=
    ((List.perm_insertionSort _ _).nodup_iff).mpr (List.nodup_dedup _)
  exact (hsorted.and hnodup).imp fun h => lt_of_le_of_ne h.1 h.2

theorem breakdown_keys (lots : List Transaction) (uid now : Nat) :
    ∀ p ∈ expirationBreakdown lots uid now,
      ∃ l ∈ lots, inWindow uid now l = true ∧ dateOf l.expiresAt = p.1 := by
  intro p hp
  unfold expirationBreakdown at hp
  obtain ⟨d, hd, rfl⟩ := List.mem_map.mp hp
  rw [List.mem_insertionSort, List.mem_dedup] at hd
  obtain ⟨l, hl, rfl⟩ := List.mem_map.mp hd
  have hfl := List.mem_filter.mp hl
  exact ⟨l, hfl.1, hfl.2, rfl⟩

/-! ### Uniqueness of the sorted order -/

/-- Two orderings that are both permutations of the same row set and both
sorted by the `(expires_at, created_at)` key coincide, provided the key is
injective on the rows. -/
theorem sorted_perm_unique :
    ∀ (l₁ l₂ : List Transaction), l₁.Perm l₂ → l₁.Pairwise keyLe →
      l₂.Pairwise keyLe →
      (∀ a ∈ l₁, ∀ b ∈ l₁, a.expiresAt = b.expiresAt →
        a.createdAt = b.createdAt → a = b) →
      l₁ = l₂ := by
  intro l₁
  induction l₁ with
  | nil =>
    intro l₂ hp _ _ _
    exact (hp.symm.eq_nil).symm
  | cons a t₁ ih =>
    intro l₂ hp hs₁ hs₂ hinj
    cases l₂ with
    | nil => exact absurd hp.eq_nil (by simp)
    | cons b t₂ =>
      have hab : keyLe a b := by
        have hb1 : b ∈ a :: t₁ := hp.mem_iff.mpr (by simp)
        rcases List.mem_cons.mp hb1 with h | h
        · subst h; exact Or.inr ⟨rfl, le_refl _⟩
        · exact List.rel_of_pairwise_cons hs₁ h
      have hba : keyLe b a := by
        have ha2 : a ∈ b :: t₂ := hp.mem_iff.mp (by simp)
        rcases List.mem_cons.mp ha2 with h | h
        · rw [h]; exact Or.inr ⟨rfl, le_refl _⟩
        · exact List.rel_of_pairwise_cons hs₂ h
      have hkey : a.expiresAt = b.expiresAt ∧ a.createdAt = b.createdAt := by
        unfold keyLe at hab hba
        rcases hab with h1 | ⟨h1, h1'⟩ <;> rcases hba with h2 | ⟨h2, h2'⟩ <;>
          exact ⟨by omega, by omega⟩
      have hb1 : b ∈ a :: t₁ := hp.mem_iff.mpr (by simp)
      have heq : a = b := hinj a (by simp) b hb1 hkey.1 hkey.2
      subst heq
      have ht : t₁.Perm t₂ := hp.cons_inv
      rw [ih t₂ ht (List.Pairwise.of_cons hs₁) (List.Pairwise.of_cons hs₂)
        (fun x hx y hy hxy hcxy =>
          hinj x (by simp [hx]) y (by simp [hy]) hxy hcxy)]

/-! ### Bridges from the deduction loop to the committed table -/

theorem findById_withdraw {lots records s : List Transaction} {uid now : Nat}
    {amount : Int} (hndl : (lots.map Transaction.id).Nodup)
    (hsel : SelSpec2 lots uid now records)
    (hok : withdrawGiven lots records amount = .ok s)
    {r : Transaction} (hr : r ∈ records) :
    findById s r.id = some (updRow (deductPlan records amount) r) := by
  obtain ⟨hsum, rfl⟩ := withdrawGiven_ok hok
  have hndr := selSpec2_nodup_ids hndl hsel
  rw [applyUpdates_eq_map _ (deductPlan_ids_nodup hndr)]
  rw [findById_map_of_id_pres (updRow_id (deductPlan records amount))]
  rw [findById_eq_some_self hndl (selSpec2_mem hsel hr).1]
  rfl

theorem updRow_deductPlan_get {records : List Transaction} {amount : Int}
    (hpos : ∀ r ∈ records, 0 ≤ r.remainingAmount)
    (hndr : (records.map Transaction.id).Nodup) (h0 : 0 ≤ amount)
    (j : Nat) (hj : j < records.length) :
    updRow (deductPlan records amount) (records.get ⟨j, hj⟩)
      = { records.get ⟨j, hj⟩ with remainingAmount :=
          (records.get ⟨j, hj⟩).remainingAmount -
            (min ((records.get ⟨j, hj⟩).remainingAmount)
              (max (amount - sumRemain (records.take j)) 0)) } := by
  have hval := deductPlan_value records amount hpos hndr h0 j hj
  unfold updRow
  split
  · rename_i v hlook
    rw [hlook, Option.getD_some] at hval
    rw [hval]
  · rename_i hlook
    rw [hlook, Option.getD_none] at hval
    rw [← hval]

/-! ## The claims -/

/-- C2: FIFO withdrawal.  For every successful withdrawal over rows `records`
the lock query may return (eligible rows of the owner, soonest-expiring
first), the `j`-th locked row ends with
`remainingAmount - min(remainingAmount, amountStillNeeded)`, where the amount
still needed at row `j` is `max(amount - sum of the remainders before it, 0)`
— i.e. each row loses `min(its remainder, what is still needed)` and rows
reached after the still-needed amount hits 0 lose nothing.  In particular,
with lots of 100, 150 and 200 points expiring in 5, 10 and 25 days,
withdrawing 220 leaves remainders 0, 30 and 200, and the remaining balance
is 230. -/
theorem fifo_withdrawal :
    (∀ (lots records s : List Transaction) (uid now : Nat) (amount : Int),
      (lots.map Transaction.id).Nodup →
      SelSpec2 lots uid now records →
      0 ≤ amount →
      withdrawGiven lots records amount = .ok s →
      ∀ (j : Nat) (hj : j < records.length),
        findById s (records.get ⟨j, hj⟩).id
          = some { records.get ⟨j, hj⟩ with remainingAmount :=
              (records.get ⟨j, hj⟩).remainingAmount -
                (min ((records.get ⟨j, hj⟩).remainingAmount)
                  (max (amount - sumRemain (records.take j)) 0)) })
    ∧ withdrawBonusPoints fifoLots 1 220 0 = .ok
        [{ id := 1, userId := 1, amount := 100, createdAt := 0,
           expiresAt := 5 * day, remainingAmount := 0 },
         { id := 2, userId := 1, amount := 150, createdAt := 0,
           expiresAt := 10 * day, remainingAmount := 30 },
         { id := 3, userId := 1, amount := 200, createdAt := 0,
           expiresAt := 25 * day, remainingAmount := 200 }]
    ∧ (withdrawBonusPoints fifoLots 1 220 0).map
        (fun s => sumBalance s 1 0) = .ok 230 := by
  refine ⟨?_, by rfl, by rfl⟩
  intro lots records s uid now amount hndl hsel h0 hok j hj
  rw [findById_withdraw hndl hsel hok (List.get_mem records j hj)]
  rw [updRow_deductPlan_get (fun r hr => le_of_lt (selSpec2_mem hsel hr).2.2.2)
    (selSpec2_nodup_ids hndl hsel) h0 j hj]

/-- Witness for C2 at the spec's example: the second locked row (the 10-day
lot) ends at remainder 30 after withdrawing 220. -/
theorem fifo_withdrawal_witness :
    findById (applyUpdates fifoLots (deductPlan (lockEligible fifoLots 1 0) 220))
        ((lockEligible fifoLots 1 0).get ⟨1, by decide⟩).id
      = some { (lockEligible fifoLots 1 0).get ⟨1, by decide⟩ with
          remainingAmount :=
            ((lockEligible fifoLots 1 0).get ⟨1, by decide⟩).remainingAmount -
              (min (((lockEligible fifoLots 1 0).get
                  ⟨1, by decide⟩).remainingAmount)
                (max (220 - sumRemain ((lockEligible fifoLots 1 0).take 1)) 0)) } :=
  fifo_withdrawal.1 fifoLots (lockEligible fifoLots 1 0)
    (applyUpdates fifoLots (deductPlan (lockEligible fifoLots 1 0) 220))
    1 0 220 (by decide) (lockEligible_selSpec2 fifoLots 1 0) (by decide)
    (by rfl) 1 (by decide)

/-- C3: insufficient-funds atomicity.  A withdrawal of a positive amount
fails with `InsufficientFunds` exactly when the total remainder of the
owner's eligible rows at lock time is below the amount, and a failing
withdrawal rolls back, leaving the store untouched. -/
theorem insufficient_funds_atomicity :
    (∀ (lots records : List Transaction) (uid now : Nat) (amount : Int),
      0 < amount → SelSpec2 lots uid now records →
      (withdrawGiven lots records amount = .error .insufficientFunds ↔
        sumBalance lots uid now < amount))
    ∧ (∀ (st : St) (now uid : Nat) (amount : Int),
        sumBalance st.lots uid now < amount →
        runOp st (now, .withdraw uid amount) = st) := by
  constructor
  · intro lots records uid now amount _ hsel
    rw [← selSpec2_sum hsel]
    constructor
    · intro h
      exact (withdrawGiven_error h).1
    · intro h
      rw [withdrawGiven, if_pos h]
  · intro st now uid amount h
    have hsum : sumRemain (lockEligible st.lots uid now)
        < amount := by
      rw [selSpec2_sum (lockEligible_selSpec2 st.lots uid now)]
      exact h
    exact runOp_withdraw_error_eq
      (by rw [withdrawBonusPoints, withdrawGiven, if_pos hsum])

/-- Witness for C3: withdrawing 70 from a single 50-point lot fails with
`InsufficientFunds`, and the store rolls back unchanged. -/
theorem insufficient_funds_atomicity_witness :
    (withdrawGiven horizonLots (lockEligible horizonLots 1 0) 300
        = .error .insufficientFunds ↔ sumBalance horizonLots 1 0 < 300)
    ∧ runOp ⟨horizonLots, 3⟩ (0, .withdraw 1 300) = ⟨horizonLots, 3⟩ :=
  ⟨insufficient_funds_atomicity.1 horizonLots (lockEligible horizonLots 1 0)
      1 0 300 (by decide) (lockEligible_selSpec2 horizonLots 1 0),
   insufficient_funds_atomicity.2 ⟨horizonLots, 3⟩ 0 1 300 (by decide)⟩

/-- C5: expiry exclusion.  A row whose `expires_at` is not in the future
contributes nothing to the balance even with a positive remainder, produces no
entry in the expiration breakdown, is never returned by the withdrawal lock
query, and keeps its remainder across any successful withdrawal. -/
theorem expired_lot_excluded :
    ∀ (uid now : Nat) (xs ys : List Transaction) (l : Transaction),
      l.expiresAt ≤ now →
      sumBalance (xs ++ l :: ys) uid now = sumBalance (xs ++ ys) uid now
      ∧ expirationBreakdown (xs ++ l :: ys) uid now
          = expirationBreakdown (xs ++ ys) uid now
      ∧ (∀ records, SelSpec2 (xs ++ l :: ys) uid now records → l ∉ records)
      ∧ (∀ (records s : List Transaction) (amount : Int),
          ((xs ++ l :: ys).map Transaction.id).Nodup →
          SelSpec2 (xs ++ l :: ys) uid now records →
          withdrawGiven (xs ++ l :: ys) records amount = .ok s →
          findById s l.id = some l) := by
  intro uid now xs ys l hexp
  have hnel : ¬(eligible uid now l = true) := fun hh =>
    absurd (eligible_iff.mp hh).2.1 (by omega)
  have hnw : ¬(inWindow uid now l = true) := by
    simp only [inWindow, Bool.and_eq_true, decide_eq_true_iff]
    intro hh
    omega
  refine ⟨?_, ?_, ?_, ?_⟩
  · simp [sumBalance, List.filter_append, List.filter_cons, hnel]
  · simp [expirationBreakdown, List.filter_append, List.filter_cons, hnw]
  · intro records hsel hl
    have := hsel.1.mem_iff.mp hl
    exact hnel (List.mem_filter.mp this).2
  · intro records s amount hndl hsel hok
    obtain ⟨hsum, rfl⟩ := withdrawGiven_ok hok
    have hndr := selSpec2_nodup_ids hndl hsel
    have hlmem : l ∈ xs ++ l :: ys := by simp
    have hnot : l.id ∉ (deductPlan records amount).map Prod.fst := by
      intro hmem
      have hrec : l.id ∈ records.map Transaction.id :=
        (deductPlan_ids_sublist records amount).subset hmem
      obtain ⟨r, hr, hid⟩ := List.mem_map.mp hrec
      have := selSpec2_mem hsel hr
      have heq : r = l := eq_of_mem_of_id_eq hndl this.1 hlmem hid
      subst heq
      exact hnel (eligible_iff.mpr ⟨this.2.1, this.2.2.1, this.2.2.2⟩)
    rw [applyUpdates_eq_map _ (deductPlan_ids_nodup hndr)]
    rw [findById_map_of_id_pres (updRow_id (deductPlan records amount))]
    rw [findById_eq_some_self hndl hlmem]
    have hupd : updRow (deductPlan records amount) l = l :=
      updRow_of_none (lookupPlan_eq_none hnot)
    simp [hupd]

/-- Witness for C5: a lot expired one day ago with remainder 100 adds nothing
to the balance or the breakdown, is not locked, and survives a withdrawal of
150 untouched. -/
theorem expired_lot_excluded_witness :
    sumBalance (horizonLots ++
        [{ id := 3, userId := 1, amount := 100, createdAt := 0,
           expiresAt := 10 * day, remainingAmount := 100 }]) 1 (11 * day)
      = sumBalance (horizonLots ++ []) 1 (11 * day)
    ∧ expirationBreakdown (horizonLots ++
        [{ id := 3, userId := 1, amount := 100, createdAt := 0,
           expiresAt := 10 * day, remainingAmount := 100 }]) 1 (11 * day)
      = expirationBreakdown (horizonLots ++ []) 1 (11 * day) := by
  have h := expired_lot_excluded 1 (11 * day) horizonLots []
    { id := 3, userId := 1, amount := 100, createdAt := 0,
      expiresAt := 10 * day, remainingAmount := 100 } (by decide)
  exact ⟨h.1, h.2.1⟩

/-- C6: expiration horizon.  The breakdown lists strictly ascending dates;
looking any date up in it (defaulting to 0) yields exactly the total
remainder of the owner's lots with `now < expires_at <= now + 30 days` whose
expiry falls on that date (rows with remainder 0 are dropped by the query but
change no sum, given the schema's nonnegativity CHECK); every listed date is
the expiry date of such a lot; and on the 80-points-in-10-days plus
120-points-in-90-days example `GetBalance` returns balance 200 with only the
10-day entry, worth 80. -/
theorem expiration_horizon :
    (∀ (lots : List Transaction) (uid now : Nat),
      (∀ l ∈ lots, 0 ≤ l.remainingAmount) →
      ((expirationBreakdown lots uid now).map Prod.fst).Pairwise (· < ·)
      ∧ (∀ d, lookupAmount (expirationBreakdown lots uid now) d
          = specWindowSum lots uid now d)
      ∧ (∀ p ∈ expirationBreakdown lots uid now,
          ∃ l ∈ lots, l.userId = uid ∧ now < l.expiresAt ∧
            l.expiresAt ≤ now + 30 * day ∧ dateOf l.expiresAt = p.1))
    ∧ getBalanceWithExpiration horizonLots 1 0 = (200, [(10, 80)]) := by
  refine ⟨?_, by rfl⟩
  intro lots uid now hpos
  refine ⟨breakdown_dates_sorted lots uid now, ?_, ?_⟩
  · intro d
    rw [lookupAmount_expirationBreakdown]
    by_cases h : d ∈ (lots.filter (inWindow uid now)).map
        fun l => dateOf l.expiresAt
    · rw [if_pos h]
      exact dateSum_win_eq_spec lots uid now d hpos
    · rw [if_neg h]
      exact (specWindowSum_eq_zero lots uid now d hpos h).symm
  · intro p hp
    obtain ⟨l, hl, hwin, hdate⟩ := breakdown_keys lots uid now p hp
    simp only [inWindow, Bool.and_eq_true, decide_eq_true_iff,
      beq_iff_eq] at hwin
    exact ⟨l, hl, hwin.1.1.1, hwin.1.1.2, hwin.1.2, hdate⟩

/-- Witness for C6: on the horizon example the 10-day date looks up to 80 and
the 90-day date to 0, matching the spec's grouping. -/
theorem expiration_horizon_witness :
    lookupAmount (expirationBreakdown horizonLots 1 0) 10
      = specWindowSum horizonLots 1 0 10
    ∧ lookupAmount (expirationBreakdown horizonLots 1 0) 90
      = specWindowSum horizonLots 1 0 90 :=
  ⟨((expiration_horizon.1 horizonLots 1 0 (by decide)).2.1) 10,
   ((expiration_horizon.1 horizonLots 1 0 (by decide)).2.1) 90⟩

/-- C4 counterexample.  The first revision's lock query (lines 178-183)
orders by `expires_at ASC` only, with no `created_at` tie-break, so for two
lots sharing an expiry the row order `[tieLotB, tieLotA]` — later-created
first — satisfies everything that query requires (`SelSpec1`), and the
withdrawal of 5 run on it consumes the LATER-created lot: the earlier-created
`tieLotA` keeps 10 while `tieLotB` drops to 5.  The claim that the lot with
the earlier `createdAt` is always consumed first is therefore false for this
implementation of Withdraw. -/
theorem tie_break_counterexample :
    SelSpec1 tieLots 7 0 [tieLotB, tieLotA]
    ∧ withdrawGiven tieLots [tieLotB, tieLotA] 5
        = .ok [tieLotA, { tieLotB with remainingAmount := 5 }]
    ∧ tieLotA.createdAt < tieLotB.createdAt
    ∧ tieLotA.expiresAt = tieLotB.expiresAt
    ∧ tieLotA.remainingAmount = 10 :=
  ⟨⟨by decide, by decide⟩, by rfl, by decide, by decide, by decide⟩

/-- C4 amended: the tie-break holds for the second revision of
`WithdrawBonusPoints` (lines 388-465), whose lock query orders by
`(expires_at, created_at)`: whenever that key is injective on the owner's
eligible lots, any two row orders the query permits are equal — the
consumption order is total and deterministic — and within it two rows with
equal expiry appear in `created_at` order.  (The first revision's query,
lines 178-183, orders by `expires_at` alone, and the tie order is
unspecified; see the counterexample.) -/
theorem tie_break_determinism :
    ∀ (lots r₁ r₂ : List Transaction) (uid now : Nat),
      (∀ a ∈ r₁, ∀ b ∈ r₁, a.expiresAt = b.expiresAt →
        a.createdAt = b.createdAt → a = b) →
      SelSpec2 lots uid now r₁ → SelSpec2 lots uid now r₂ →
      r₁ = r₂
      ∧ (∀ (i j : Fin r₁.length), i < j →
          (r₁.get i).expiresAt = (r₁.get j).expiresAt →
          (r₁.get i).createdAt ≤ (r₁.get j).createdAt) := by
  intro lots r₁ r₂ uid now hinj h₁ h₂
  constructor
  · exact sorted_perm_unique r₁ r₂ (h₁.1.trans h₂.1.symm) h₁.2 h₂.2 hinj
  · intro i j hij hexp
    have hkey : keyLe (r₁.get i) (r₁.get j) :=
      (List.pairwise_iff_get.mp h₁.2) i j hij
    unfold keyLe at hkey
    rcases hkey with h | ⟨_, h⟩
    · omega
    · exact h

/-- Witness for C4's amended statement: on the tied lots the
`(expires_at, created_at)` order is unique and puts the earlier-created lot
first. -/
theorem tie_break_determinism_witness :
    lockEligible tieLots 7 0 = lockEligible tieLots 7 0
    ∧ (∀ (i j : Fin (lockEligible tieLots 7 0).length), i < j →
        ((lockEligible tieLots 7 0).get i).expiresAt
          = ((lockEligible tieLots 7 0).get j).expiresAt →
        ((lockEligible tieLots 7 0).get i).createdAt
          ≤ ((lockEligible tieLots 7 0).get j).createdAt) :=
  tie_break_determinism tieLots (lockEligible tieLots 7 0)
    (lockEligible tieLots 7 0) 7 0 (by decide)
    (lockEligible_selSpec2 tieLots 7 0) (lockEligible_selSpec2 tieLots 7 0)

/-- C9 counterexample.  In the second revision of `GetBalanceWithExpiration`
(lines 314-358) a failing expiration query is NOT surfaced: the code comment
says `Return balance even if expiration query fails`, and the call succeeds
with the balance and an empty expirations map instead of returning the
storage error.  Row-scan failures are likewise skipped with `continue`. -/
theorem storage_error_counterexample :
    getBalanceSecondRev horizonLots 1 0 false true = .ok (200, [])
    ∧ getBalanceSecondRev horizonLots 1 0 false true ≠ .error .storage :=
  ⟨by rfl, fun h => Except.noConfusion h⟩

/-- C9 amended: the first revision of `GetBalanceWithExpiration`
(lines 119-164) surfaces a failure of either query as a storage error; the
second revision (lines 314-358) surfaces only balance-query failures, and on
an expiration-query failure succeeds with the balance and an empty
expirations map. -/
theorem storage_error_amended :
    ∀ (lots : List Transaction) (uid now : Nat),
      getBalanceFirstRev lots uid now true false = .error .storage
      ∧ getBalanceFirstRev lots uid now false true = .error .storage
      ∧ (∀ balFail expFail,
          getBalanceFirstRev lots uid now balFail expFail
              = .ok (sumBalance lots uid now, expirationBreakdown lots uid now)
            ↔ balFail = false ∧ expFail = false)
      ∧ getBalanceSecondRev lots uid now true false = .error .storage
      ∧ getBalanceSecondRev lots uid now false true
          = .ok (sumBalance lots uid now, []) := by
  intro lots uid now
  refine ⟨rfl, rfl, ?_, rfl, rfl⟩
  intro balFail expFail
  cases balFail <;> cases expFail <;>
    simp [getBalanceFirstRev]

/-- C8 counterexample.  `createTransactionHandler` (lines 26-41 of
`src/cmd/api/transactions.go`) treats a deposit with `lifetime_days = 0` as
"not provided" and defaults it to 365 days: the request passes validation and
CREATES a lot expiring in 365 days, instead of failing with a validation
(InvalidInput) error as the claim requires for every non-positive lifetime. -/
theorem invalid_input_counterexample :
    (createTransactionHandler st0 0 true 1 10 "deposit" 0).1
      = .created { id := 0, userId := 1, amount := 10, createdAt := 0,
                   expiresAt := 365 * day, remainingAmount := 10 }
    ∧ (createTransactionHandler st0 0 true 1 10 "deposit" 0).2.lots
      = [{ id := 0, userId := 1, amount := 10, createdAt := 0,
           expiresAt := 365 * day, remainingAmount := 10 }] :=
  ⟨by rfl, by rfl⟩

/-- C8 amended: a request with `amount <= 0` — deposit or withdrawal — fails
validation with the `amount` field flagged and leaves the store untouched,
so the data layer is never reached; a deposit with NEGATIVE `lifetime_days`
likewise fails validation with `lifetime_days` flagged and creates no lot.
(A deposit with `lifetime_days` exactly 0 is instead defaulted to 365 days
and succeeds; see the counterexample.) -/
theorem invalid_input_rejection :
    ∀ (st : St) (now : Nat) (uidOk : Bool) (uid : Nat) (amount : Int)
      (ty : String) (lifetimeDays : Int),
      (amount ≤ 0 →
        (∃ fields, (createTransactionHandler st now uidOk uid amount ty
            lifetimeDays).1 = .failedValidation fields ∧ "amount" ∈ fields)
        ∧ (createTransactionHandler st now uidOk uid amount ty
            lifetimeDays).2 = st)
      ∧ (ty = "deposit" → lifetimeDays < 0 →
        (∃ fields, (createTransactionHandler st now uidOk uid amount ty
            lifetimeDays).1 = .failedValidation fields ∧
            "lifetime_days" ∈ fields)
        ∧ (createTransactionHandler st now uidOk uid amount ty
            lifetimeDays).2 = st) := by
  intro st now uidOk uid amount ty lifetimeDays
  constructor
  · intro ham
    have hmem : "amount" ∈ (validateTransaction uidOk amount ty
        lifetimeDays).1 := by
      have hna : ¬amount > 0 := by omega
      simp [validateTransaction, hna]
    have hne : (validateTransaction uidOk amount ty lifetimeDays).1 ≠ [] :=
      List.ne_nil_of_mem hmem
    constructor
    · refine ⟨(validateTransaction uidOk amount ty lifetimeDays).1, ?_, hmem⟩
      simp only [createTransactionHandler, if_pos hne]
    · simp only [createTransactionHandler, if_pos hne]
  · intro hty hld
    have hmem : "lifetime_days" ∈ (validateTransaction uidOk amount ty
        lifetimeDays).1 := by
      have h0 : ¬(ty = "deposit" ∧ lifetimeDays = 0) := by
        intro hh; omega
      have h1 : ¬lifetimeDays > 0 := by omega
      simp [validateTransaction, h0, hty, h1]
      split_ifs <;> omega
    have hne : (validateTransaction uidOk amount ty lifetimeDays).1 ≠ [] :=
      List.ne_nil_of_mem hmem
    constructor
    · refine ⟨(validateTransaction uidOk amount ty lifetimeDays).1, ?_, hmem⟩
      simp only [createTransactionHandler, if_pos hne]
    · simp only [createTransactionHandler, if_pos hne]

/-- Witness for C8's amended statement: a withdrawal of -3 is rejected by
validation and mutates nothing. -/
theorem invalid_input_rejection_witness :
    (-3 : Int) ≤ 0
    ∧ (createTransactionHandler st0 0 true 1 (-3) "withdrawal" 0).2 = st0 :=
  ⟨by omega,
   ((invalid_input_rejection st0 0 true 1 (-3) "withdrawal" 0).1
     (by omega)).2⟩

/-! ### Bridges between the reported balance and the owner totals -/

theorem sumBalance_eq_sumOwnerAll {lots : List Transaction} {uid now : Nat}
    (h : ∀ l ∈ lots, l.userId = uid →
      now < l.expiresAt ∧ 0 ≤ l.remainingAmount) :
    sumBalance lots uid now = sumOwnerAll uid lots := by
  induction lots with
  | nil => rfl
  | cons l ls ih =>
    have ih' := ih fun x hx => h x (by simp [hx])
    have hl := h l (by simp)
    rw [sumOwnerAll_cons, show sumBalance (l :: ls) uid now
      = (if eligible uid now l = true then l.remainingAmount else 0)
        + sumBalance ls uid now by
        simp only [sumBalance, List.filter_cons]
        split <;> simp [sumRemain_cons]]
    rw [ih']
    by_cases hu : l.userId = uid
    · obtain ⟨hexp, hrem⟩ := hl hu
      by_cases hr : 0 < l.remainingAmount
      · rw [if_pos (eligible_iff.mpr ⟨hu, hexp, hr⟩), if_pos hu]
      · have hz : l.remainingAmount = 0 := by omega
        rw [if_neg (fun hh => hr (eligible_iff.mp hh).2.2), if_pos hu, hz]
    · rw [if_neg (fun hh => hu (eligible_iff.mp hh).1), if_neg hu]

theorem nonExpiredGrantSum_eq_sumOwnerAmount {lots : List Transaction}
    {uid now : Nat} (h : ∀ l ∈ lots, l.userId = uid → now < l.expiresAt) :
    nonExpiredGrantSum lots uid now = sumOwnerAmount uid lots := by
  unfold nonExpiredGrantSum sumOwnerAmount
  congr 1
  congr 1
  refine List.filter_congr fun x hx => ?_
  by_cases hu : x.userId = uid
  · have := h x hx hu
    simp [hu, this]
  · simp [hu]

/-- C1 counterexample.  Grant 100 points living one day, withdraw 60, then
observe two days later: the lot has expired, so the reported balance is 0 and
the claim's `sum of granted amounts over non-expired lots` is 0 — but the
successful withdrawals sum to 60, so `balance = sum(a_i non-expired) - w`
would demand `0 = -60`.  The conservation equation as stated fails once a
partially consumed lot expires. -/
theorem conservation_counterexample :
    sumBalance (runOps st0 expiryTraceOps).lots 1 (2 * day) = 0
    ∧ nonExpiredGrantSum (runOps st0 expiryTraceOps).lots 1 (2 * day) = 0
    ∧ withdrawnTotal 1 st0 expiryTraceOps = 60
    ∧ sumBalance (runOps st0 expiryTraceOps).lots 1 (2 * day)
        ≠ nonExpiredGrantSum (runOps st0 expiryTraceOps).lots 1 (2 * day)
          - withdrawnTotal 1 st0 expiryTraceOps :=
  ⟨by rfl, by rfl, by rfl, by decide⟩

/-- C1 amended: conservation holds at every commit point at which no lot of
the owner has yet expired.  After any sequence of grants and (possibly
failing) withdrawals with positive amounts, run from an empty store, if every
lot of the owner is still unexpired at the observation instant, then the
reported balance equals the sum of the granted amounts of the non-expired
lots minus the total of the successful withdrawals, that sum equals the total
granted, and the balance is never negative.  (When consumed lots may expire,
only `balance >= 0` survives; see the counterexample.) -/
theorem conservation :
    ∀ (uid : Nat) (ops : List (Nat × Op)) (now : Nat),
      (∀ p ∈ ops, 0 < opAmount p.2) →
      (∀ l ∈ (runOps st0 ops).lots, l.userId = uid → now < l.expiresAt) →
      sumBalance (runOps st0 ops).lots uid now
        = nonExpiredGrantSum (runOps st0 ops).lots uid now
            - withdrawnTotal uid st0 ops
      ∧ nonExpiredGrantSum (runOps st0 ops).lots uid now
          = grantedTotal uid ops
      ∧ 0 ≤ sumBalance (runOps st0 ops).lots uid now := by
  intro uid ops now hpos hunexp
  obtain ⟨hinv, hAll, hAmt⟩ := trace_main uid ops st0 hpos stInv_st0
  have h0a : sumOwnerAll uid st0.lots = 0 := rfl
  have h0b : sumOwnerAmount uid st0.lots = 0 := rfl
  rw [h0a] at hAll
  rw [h0b] at hAmt
  have hbal : sumBalance (runOps st0 ops).lots uid now
      = sumOwnerAll uid (runOps st0 ops).lots :=
    sumBalance_eq_sumOwnerAll fun l hl hu =>
      ⟨hunexp l hl hu, (hinv.1 l hl).1⟩
  have hgrant : nonExpiredGrantSum (runOps st0 ops).lots uid now
      = sumOwnerAmount uid (runOps st0 ops).lots :=
    nonExpiredGrantSum_eq_sumOwnerAmount hunexp
  have hnn : 0 ≤ sumOwnerAll uid (runOps st0 ops).lots :=
    sumOwnerAll_nonneg fun l hl => (hinv.1 l hl).1
  refine ⟨?_, ?_, ?_⟩
  · rw [hbal, hgrant]; omega
  · rw [hgrant]; omega
  · rw [hbal]; exact hnn

/-- Witness for C1's amended statement: grant 100 points for five days and
withdraw 60 at once; observed immediately, the balance is 100 - 60 = 40 and
conservation holds. -/
theorem conservation_witness :
    sumBalance (runOps st0 liveTraceOps).lots 1 0
      = nonExpiredGrantSum (runOps st0 liveTraceOps).lots 1 0
          - withdrawnTotal 1 st0 liveTraceOps
    ∧ nonExpiredGrantSum (runOps st0 liveTraceOps).lots 1 0
        = grantedTotal 1 liveTraceOps
    ∧ 0 ≤ sumBalance (runOps st0 liveTraceOps).lots 1 0 :=
  conservation 1 liveTraceOps 0 (by decide) (by decide)

/-- C7: remaining-amount bounds.  In every store reachable by a sequence of
grants and withdrawals with positive amounts (the schema CHECK requires
`amount > 0`), every row satisfies `0 <= remaining_amount <= amount`;
`AddBonusPoints` creates its row with `remaining_amount = amount`; and every
UPDATE the deduction loop issues writes a value between 0 and the row's
previous remainder, so no deduction overdraws a lot. -/
theorem remaining_amount_bounds :
    (∀ ops : List (Nat × Op), (∀ p ∈ ops, 0 < opAmount p.2) →
      ∀ l ∈ (runOps st0 ops).lots,
        0 ≤ l.remainingAmount ∧ l.remainingAmount ≤ l.amount)
    ∧ (∀ (st : St) (uid : Nat) (amount : Int) (ld now : Nat),
        (addBonusPoints st uid amount ld now).2.remainingAmount = amount
        ∧ (addBonusPoints st uid amount ld now).2.amount = amount)
    ∧ (∀ (records : List Transaction) (amount : Int),
        (∀ r ∈ records, 0 ≤ r.remainingAmount) →
        ∀ p ∈ deductPlan records amount,
          ∃ r ∈ records, p.1 = r.id ∧ 0 ≤ p.2 ∧ p.2 ≤ r.remainingAmount) := by
  refine ⟨?_, fun st uid amount ld now => ⟨rfl, rfl⟩, deductPlan_mem_bound⟩
  intro ops hpos l hl
  obtain ⟨hinv, _, _⟩ := trace_main 0 ops st0 hpos stInv_st0
  exact ⟨(hinv.1 l hl).1, (hinv.1 l hl).2.1⟩

/-- Witness for C7: the single lot left by granting 100 and withdrawing 60
satisfies the bounds. -/
theorem remaining_amount_bounds_witness :
    0 ≤ ((runOps st0 liveTraceOps).lots.get ⟨0, by decide⟩).remainingAmount
    ∧ ((runOps st0 liveTraceOps).lots.get ⟨0, by decide⟩).remainingAmount
        ≤ ((runOps st0 liveTraceOps).lots.get ⟨0, by decide⟩).amount :=
  remaining_amount_bounds.1 liveTraceOps (by decide) _
    (List.get_mem _ 0 (by decide))

theorem get_map_updRow (plan : List (Nat × Int)) (lots : List Transaction)
    (i : Nat) (hi : i < lots.length)
    (hi' : i < (lots.map (updRow plan)).length) :
    (lots.map (updRow plan)).get ⟨i, hi'⟩ = updRow plan (lots.get ⟨i, hi⟩) := by
  simp [List.get_eq_getElem, List.getElem_map]

/-- C10: withdraw frame property.  A successful withdrawal preserves the
table's row ids in order (no row inserted, deleted or reordered), changes no
field other than `remaining_amount` of any row, leaves every row whose id the
deduction loop does not name fully untouched, and leaves every locked row
from the point where the running prefix of remainders already covers the
requested amount with its remainder exactly intact. -/
theorem withdraw_frame :
    ∀ (lots records s : List Transaction) (uid now : Nat) (amount : Int),
      (lots.map Transaction.id).Nodup →
      SelSpec2 lots uid now records →
      0 ≤ amount →
      withdrawGiven lots records amount = .ok s →
      s.map Transaction.id = lots.map Transaction.id
      ∧ s.length = lots.length
      ∧ (∀ (i : Nat) (hi : i < lots.length) (hi' : i < s.length),
          (s.get ⟨i, hi'⟩).id = (lots.get ⟨i, hi⟩).id ∧
          (s.get ⟨i, hi'⟩).userId = (lots.get ⟨i, hi⟩).userId ∧
          (s.get ⟨i, hi'⟩).amount = (lots.get ⟨i, hi⟩).amount ∧
          (s.get ⟨i, hi'⟩).createdAt = (lots.get ⟨i, hi⟩).createdAt ∧
          (s.get ⟨i, hi'⟩).expiresAt = (lots.get ⟨i, hi⟩).expiresAt)
      ∧ (∀ (i : Nat) (hi : i < lots.length) (hi' : i < s.length),
          (lots.get ⟨i, hi⟩).id ∉ (deductPlan records amount).map Prod.fst →
          s.get ⟨i, hi'⟩ = lots.get ⟨i, hi⟩)
      ∧ (∀ (j : Nat) (hj : j < records.length),
          amount ≤ sumRemain (records.take j) →
          findById s (records.get ⟨j, hj⟩).id
            = some (records.get ⟨j, hj⟩)) := by
  intro lots records s uid now amount hndl hsel h0 hok
  have hndr := selSpec2_nodup_ids hndl hsel
  have htail : ∀ (j : Nat) (hj : j < records.length),
      amount ≤ sumRemain (records.take j) →
      findById s (records.get ⟨j, hj⟩).id = some (records.get ⟨j, hj⟩) := by
    intro j hj hcov
    rw [findById_withdraw hndl hsel hok (List.get_mem records j hj)]
    rw [updRow_deductPlan_get
      (fun r hr => le_of_lt (selSpec2_mem hsel hr).2.2.2) hndr h0 j hj]
    have hmm : min ((records.get ⟨j, hj⟩).remainingAmount)
        (max (amount - sumRemain (records.take j)) 0) = 0 := by
      have hr0 : 0 ≤ (records.get ⟨j, hj⟩).remainingAmount :=
        le_of_lt (selSpec2_mem hsel (List.get_mem records j hj)).2.2.2
      rw [min_def, max_def]
      split_ifs <;> omega
    rw [hmm, Int.sub_zero, Transaction.setSame]
  obtain ⟨hsum, rfl⟩ := withdrawGiven_ok hok
  rw [applyUpdates_eq_map _ (deductPlan_ids_nodup hndr)]
  rw [applyUpdates_eq_map _ (deductPlan_ids_nodup hndr)] at htail
  have hmapid : (lots.map (updRow (deductPlan records amount))).map
      Transaction.id = lots.map Transaction.id := by
    rw [List.map_map]
    exact List.map_congr_left fun l _ => updRow_id _ l
  refine ⟨hmapid, by simp, ?_, ?_, htail⟩
  · intro i hi hi'
    rw [get_map_updRow _ _ i hi hi']
    exact ⟨updRow_id _ _, updRow_userId _ _, updRow_amount _ _,
      updRow_createdAt _ _, updRow_expiresAt _ _⟩
  · intro i hi hi' hnot
    rw [get_map_updRow _ _ i hi hi']
    exact updRow_of_none (lookupPlan_eq_none hnot)

/-- Witness for C10 at the FIFO example: withdrawing 220 leaves the 25-day
lot (third row) completely untouched. -/
theorem withdraw_frame_witness :
    (applyUpdates fifoLots
        (deductPlan (lockEligible fifoLots 1 0) 220)).get ⟨2, by decide⟩
      = fifoLots.get ⟨2, by decide⟩ :=
  (withdraw_frame fifoLots (lockEligible fifoLots 1 0)
    (applyUpdates fifoLots (deductPlan (lockEligible fifoLots 1 0) 220))
    1 0 220 (by decide) (lockEligible_selSpec2 fifoLots 1 0) (by decide)
    (by rfl)).2.2.2.1 2 (by decide) (by decide) (by decide)

end Ledger
